import Mathlib

/-!
Shallow embedding of `src/helpers/masking_methods.py` (class `FrequencyMasking`).

Arrays (numpy 2-D magnitude spectrograms) are modelled as real-valued functions
over an abstract index type `ι`; element-wise numpy arithmetic becomes pointwise
real arithmetic.  Float power `**` with a real exponent is modelled by `Real.rpow`
and `** 2.` by squaring; `np.log` is the natural logarithm `Real.log`.
Fallible paths (`raise ValueError`) are modelled with `Except String`.
-/

noncomputable section

namespace FrequencyMasking

/-- Machine epsilon of the float type, `np.finfo(np.float).eps = 2 ^ (-52)`
    (`self._eps`, line 16 of the source). -/
def mEps : ℝ := 1 / 2 ^ 52

/-- Arithmetic mean of an array, `np.mean` (sum of all entries over their number). -/
def npMean {ι : Type} [Fintype ι] (f : ι → ℝ) : ℝ :=
  (∑ i, f i) / (Fintype.card ι)

/-- Ideal Amplitude Ratio Mask, method `IRM` (lines 98-112):
    `mask = sTarget / (eps + sTarget + nResidual)`. -/
def IRM {ι : Type} (sT nR : ι → ℝ) : ι → ℝ :=
  fun i => sT i / (mEps + sT i + nR i)

/-- Ideal Amplitude Mask, method `IAM` (lines 114-129):
    `mask = sTarget / (eps + nResidual)`. -/
def IAM {ι : Type} (sT nR : ι → ℝ) : ι → ℝ :=
  fun i => sT i / (mEps + nR i)

/-- Exponential mask, method `expMask` (lines 131-146):
    `mask = log(clip(sTarget, eps, inf) ** alpha) / log(clip(nResidual, eps, inf) ** alpha)`.
    `clip(x, eps, inf)` is `max x eps`. -/
def ExpM {ι : Type} (alpha : ℝ) (sT nR : ι → ℝ) : ι → ℝ :=
  fun i => Real.log (max (sT i) mEps ^ alpha) / Real.log (max (nR i) mEps ^ alpha)

/-- Ideal Binary Mask, method `IBM` (lines 148-165): threshold the ratio
    `sTarget ** alpha / (eps + nResidual ** alpha)` at `theta = 0.5`. -/
def IBM {ι : Type} (alpha : ℝ) (sT nR : ι → ℝ) : ι → ℝ :=
  fun i => if 0.5 ≤ sT i ^ alpha / (mEps + nR i ^ alpha) then 1 else 0

/-- Upper Bound Binary Mask, method `UBBM` (lines 167-186): threshold
    `20 * log(eps + (eps + sTarget ** alpha) / (eps + nResidual ** alpha))` at `0`. -/
def UBBM {ι : Type} (alpha : ℝ) (sT nR : ι → ℝ) : ι → ℝ :=
  fun i =>
    if 0 ≤ 20 * Real.log (mEps + (mEps + sT i ^ alpha) / (mEps + nR i ^ alpha)) then 1 else 0

/-- Wiener-like mask, method `Wiener` (lines 188-210).  The residual field holds a
    list of spectrograms; the computed denominator is
    `nResidual[0] ** 2 + sTarget ** 2` plus the squares of the remaining list
    entries (both the `numElements > 1` and the `numElements == 1` branch of the
    source produce exactly this sum). -/
def Wiener {ι : Type} (sT : ι → ℝ) (nRes : List (ι → ℝ)) : ι → ℝ :=
  fun i =>
    (sT i ^ 2 + mEps) /
      (mEps + (nRes.headI i ^ 2 + sT i ^ 2 + (nRes.tail.map (fun r => r i ^ 2)).sum))

/-- Fractional-power Wiener mask, method `alphaWiener`
    (`alphaHarmonizableProcess`, lines 212-236): same structure as `Wiener`
    with `** alpha` in place of `** 2`. -/
def alphaHarmonizableProcess {ι : Type} (alpha : ℝ) (sT : ι → ℝ) (nRes : List (ι → ℝ)) : ι → ℝ :=
  fun i =>
    (sT i ^ alpha + mEps) /
      (mEps + (nRes.headI i ^ alpha + sT i ^ alpha + (nRes.tail.map (fun r => r i ^ alpha)).sum))

/-- Phase sensitive mask, method `Phase` (lines 238-258):
    `Theta = pTarget - pY`;
    `mask = 2 / (1 + exp(-(sTarget / (eps + nResidual)) * cos(Theta))) - 1`. -/
def phaseSensitive {ι : Type} (sT nR pT pY : ι → ℝ) : ι → ℝ :=
  fun i =>
    2 / (1 + Real.exp (-(sT i / (mEps + nR i) * Real.cos (pT i - pY i)))) - 1

/-- Message of the `ValueError` raised by the Phase guard (line 35); the
    specification calls this error `InvalidConfiguration`. -/
def phaseErrorMessage : String :=
  "Phase-sensitive masking cannot be performed without phase information."

/-- Message of the `ValueError` raised by `applyReverseMask` for `expMask`
    (line 426); the specification calls this error `UnsupportedOperation`. -/
def reverseErrorMessage : String :=
  "Cannot compute that using such masking method."

/-- The engine state built by `__init__` (lines 14-29).  numpy arrays carry a
    `.size`; the phase arrays are modelled as value functions together with their
    size, so that an empty phase array is one with size `0`.  The residual field
    is the list form (`ResidualSet`); the element-wise methods use its single
    element (`headI`), mirroring how the source uses the bare array. -/
structure Engine (ι : Type) where
  mX : ι → ℝ
  sTarget : ι → ℝ
  nResidual : List (ι → ℝ)
  pTargetSize : ℕ
  pTarget : ι → ℝ
  pYSize : ℕ
  pY : ι → ℝ
  alpha : ℝ
  method : String

/-- Result of an invocation: `self._Out` starts as the empty list `[]`
    (line 22, `OutVal.initial`); the 2-D methods store a filtered spectrogram
    (`OutVal.arr`); the `MWF` branch stores the multichannel filter result,
    whose covariance recursion is modelled separately below (`OutVal.mwfOut`). -/
inductive OutVal (ι : Type) where
  | initial : OutVal ι
  | arr : (ι → ℝ) → OutVal ι
  | mwfOut : OutVal ι

/-- `applyMask` (lines 404-415): for `expMask` the generalized exponential
    application `(mX ** alpha) ** mask`, otherwise `mask * mX`. -/
def applyMask {ι : Type} (e : Engine ι) (mask : ι → ℝ) : ι → ℝ :=
  if e.method = "expMask" then fun i => (e.mX i ^ e.alpha) ^ mask i
  else fun i => mask i * e.mX i

/-- `applyReverseMask` (lines 417-428): raises for `expMask`, otherwise
    `(1 - mask) * mX`. -/
def applyReverseMask {ι : Type} (e : Engine ι) (mask : ι → ℝ) : Except String (ι → ℝ) :=
  if e.method = "expMask" then Except.error reverseErrorMessage
  else Except.ok fun i => (1 - mask i) * e.mX i

/-- The `if not reverse: applyMask else: applyReverseMask` step shared by every
    2-D branch of `__call__`. -/
def applyStep {ι : Type} (e : Engine ι) (mask : ι → ℝ) (reverse : Bool) :
    Except String (OutVal ι) :=
  if reverse then Except.map OutVal.arr (applyReverseMask e mask)
  else Except.ok (OutVal.arr (applyMask e mask))

/-- `__call__` (lines 31-96).  Note the guard of the Phase branch: the source
    line 34 reads `if not self._pTarget.size or not self._pTarget.size`, i.e. it
    tests the target phase size twice and never tests the residual phase; the
    embedding keeps that duplication verbatim.  A method name that matches none
    of the nine branches falls through and returns the untouched `self._Out`. -/
def callEngine {ι : Type} (e : Engine ι) (reverse : Bool) : Except String (OutVal ι) :=
  if e.method = "Phase" then
    if e.pTargetSize = 0 ∨ e.pTargetSize = 0 then Except.error phaseErrorMessage
    else applyStep e (phaseSensitive e.sTarget e.nResidual.headI e.pTarget e.pY) reverse
  else if e.method = "IRM" then applyStep e (IRM e.sTarget e.nResidual.headI) reverse
  else if e.method = "IAM" then applyStep e (IAM e.sTarget e.nResidual.headI) reverse
  else if e.method = "IBM" then applyStep e (IBM e.alpha e.sTarget e.nResidual.headI) reverse
  else if e.method = "UBBM" then applyStep e (UBBM e.alpha e.sTarget e.nResidual.headI) reverse
  else if e.method = "Wiener" then applyStep e (Wiener e.sTarget e.nResidual) reverse
  else if e.method = "alphaWiener" then
    applyStep e (alphaHarmonizableProcess e.alpha e.sTarget e.nResidual) reverse
  else if e.method = "expMask" then applyStep e (ExpM e.alpha e.sTarget e.nResidual.headI) reverse
  else if e.method = "MWF" then Except.ok OutVal.mwfOut
  else Except.ok OutVal.initial

/-- Python list indexing with possibly negative index, `l[k]`: a negative `k`
    counts from the end.  Out-of-range access (an `IndexError` in Python) is
    modelled by the default `d`; every use below is in range. -/
def pyGet {α : Type} (d : α) (l : List α) (k : ℤ) : α :=
  if k < 0 then l.getD (l.length - (-k).toNat) d else l.getD k.toNat d

/-- Python `l[-1] = x`: replace the last element of a list. -/
def replaceLast {α : Type} (l : List α) (x : α) : List α :=
  l.dropLast ++ [x]

/-- Minimum value of a list of floats (`np.min`); `0` for the empty list,
    which never occurs in the uses below. -/
def listMin : List ℝ → ℝ
  | [] => 0
  | x :: xs => xs.foldl min x

/-- First index of the minimal element, `np.argmin`. -/
def argminIdx : List ℝ → ℕ
  | [] => 0
  | x :: xs => if x ≤ listMin xs ∨ xs = [] then 0 else argminIdx xs + 1

/-- Itakura-Saito distance `_IS` (lines 430-441):
    `r1 = (abs(mX) ** alpha + eps) / (abs(Xhat) + eps)`,
    `lg = log(abs(mX) ** alpha + eps) - log(abs(Xhat) + eps)`,
    result `mean(r1 - lg - 1)`.  The exponent `alpha` here is the value of the
    attribute `self._alpha`, passed in explicitly by the callers below. -/
def ISdist {ι : Type} [Fintype ι] (mX : ι → ℝ) (alpha : ℝ) (Xhat : ι → ℝ) : ℝ :=
  npMean (fun i =>
    (|mX i| ^ alpha + mEps) / (|Xhat i| + mEps)
      - (Real.log (|mX i| ^ alpha + mEps) - Real.log (|Xhat i| + mEps)) - 1)

/-- First derivative of the Itakura-Saito distance `_dIS` (lines 443-454):
    `mean(abs(Xhat + eps) ** (-2) * (abs(Xhat) - abs(mX) ** alpha))`. -/
def dISdist {ι : Type} [Fintype ι] (mX : ι → ℝ) (alpha : ℝ) (Xhat : ι → ℝ) : ℝ :=
  npMean (fun i => |Xhat i + mEps| ^ (-2 : ℝ) * (|Xhat i| - |mX i| ^ alpha))

/-- Definition written from the words of the specification (section 4.3,
    Numeric notes): `IS(Xhat) = mean(r - log(r) - 1)` with
    `r = (abs(mixture) ** alphaTarget + eps) / (abs(Xhat) + eps)`, where the
    specification takes `alphaTarget` to be the current per-source exponent of
    the target.  Used to compare the specified loss with the one the code
    computes. -/
def ISclaimed {ι : Type} [Fintype ι] (mX : ι → ℝ) (alphaTarget : ℝ) (Xhat : ι → ℝ) : ℝ :=
  npMean (fun i =>
    (|mX i| ^ alphaTarget + mEps) / (|Xhat i| + mEps)
      - Real.log ((|mX i| ^ alphaTarget + mEps) / (|Xhat i| + mEps)) - 1)

/-- State threaded through the `optAlpha` iteration loop (lines 280-333):
    the exponent vector `alpha`, the per-source learning rates `lrs`, the
    exponent history `alpha_log` and the loss history `i_s_loss`.  Sources are
    indexed by `Fin nS` with source `0` the target (`s_list`, lines 275-278).
    The `d_loss` array is fully recomputed every iteration and is therefore a
    local of the loop body here. -/
structure OptState (nS : ℕ) (ι : Type) where
  alpha : Fin nS → ℝ
  lrs : Fin nS → ℝ
  alphaLog : List (Fin nS → ℝ)
  isLoss : List ℝ

/-- Initial optimizer state (lines 280-283): every exponent `1.15`, every
    learning rate `self._lr = 1.5e-3`, empty histories. -/
def optState0 {ι : Type} (nS : ℕ) : OptState nS ι :=
  ⟨fun _ => 1.15, fun _ => 0.0015, [], []⟩

/-- Additive power spectrogram `Xhat = sum_s s_list[s] ** alpha[s]`
    (line 290, recomputed identically at lines 308-310 and 348-350). -/
def XhatOf {ι : Type} {nS : ℕ} (sList : Fin nS → ι → ℝ) (alpha : Fin nS → ℝ) : ι → ℝ :=
  fun i => ∑ s, sList s i ^ alpha s

/-- Per-source derivative of the loss (lines 291-296):
    `d_loss[s] = dIS(Xhat) * mean(s_list[s] ** alpha[s] * log(s_list[s] + eps))`,
    evaluated at the pre-update exponents. -/
def dLossOf {ι : Type} [Fintype ι] {nS : ℕ} (mX : ι → ℝ) (a : ℝ) (sList : Fin nS → ι → ℝ)
    (alpha : Fin nS → ℝ) : Fin nS → ℝ :=
  fun s =>
    dISdist mX a (XhatOf sList alpha) *
      npMean (fun i => sList s i ^ alpha s * Real.log (sList s i + mEps))

/-- The exponent update of one iteration (lines 298-302): gradient step,
    `np.clip(.., 0.5, 2.)`, then `np.round(alpha * 100) / 100`.  `np.round`
    rounds halves to even; the loop values never hit an exact tie, and the
    embedding uses the standard `round`. -/
def alphaUpdate {ι : Type} [Fintype ι] {nS : ℕ} (mX : ι → ℝ) (a : ℝ) (sList : Fin nS → ι → ℝ)
    (st : OptState nS ι) : Fin nS → ℝ :=
  fun s =>
    ((round (max 0.5 (min 2 (st.alpha s - st.lrs s * dLossOf mX a sList st.alpha s)) * 100) : ℤ) : ℝ)
      / 100

/-- The RProp learning-rate update (lines 314-320): from iteration index `3`
    on, multiply all rates by `eta_plus = 1.1` when the last loss decreased and
    by `eta_minus = 0.1` when it increased. -/
def lrsUpdate {nS : ℕ} (iterIdx : ℕ) (lrs : Fin nS → ℝ) (losses : List ℝ) : Fin nS → ℝ :=
  if 2 < iterIdx then
    if 0 < pyGet 0 losses (-2) - pyGet 0 losses (-1) then fun s => lrs s * 1.1
    else if pyGet 0 losses (-2) - pyGet 0 losses (-1) < 0 then fun s => lrs s * 0.1
    else lrs
  else lrs

/-- One full iteration of the `optAlpha` loop body (lines 288-320): exponent
    update, append to `alpha_log`, recompute `Xhat` with the new exponents,
    append the IS loss (computed by `self._IS`, hence with the engine attribute
    exponent `a`), then the RProp rate update. -/
def optBody {ι : Type} [Fintype ι] {nS : ℕ} (mX : ι → ℝ) (a : ℝ) (sList : Fin nS → ι → ℝ)
    (iterIdx : ℕ) (st : OptState nS ι) : OptState nS ι :=
  ⟨alphaUpdate mX a sList st,
   lrsUpdate iterIdx st.lrs
     (st.isLoss ++ [ISdist mX a (XhatOf sList (alphaUpdate mX a sList st))]),
   st.alphaLog ++ [alphaUpdate mX a sList st],
   st.isLoss ++ [ISdist mX a (XhatOf sList (alphaUpdate mX a sList st))]⟩

/-- The `Stuck...` branch of the stagnation exit (lines 324-327): the exponent
    becomes `alpha_log[argmin(i_s_loss) - 1]` (Python indexing, so the index
    `-1` reached when the argmin is `0` wraps to the last entry) and the last
    recorded loss is overwritten with `i_s_loss[argmin(i_s_loss)]`. -/
def stuckAdjust {ι : Type} {nS : ℕ} (st : OptState nS ι) : OptState nS ι :=
  ⟨pyGet (fun _ => 0) st.alphaLog ((argminIdx st.isLoss : ℤ) - 1),
   st.lrs,
   st.alphaLog,
   replaceLast st.isLoss (pyGet 0 st.isLoss (argminIdx st.isLoss : ℤ))⟩

/-- The stagnation check (lines 322-332): after iteration index `4`, if the two
    most recent loss deltas are both below `1e-4` in magnitude the loop breaks;
    when the terminal loss exceeds `3e-1` the `stuckAdjust` rollback is applied
    first.  Returns the post-exit state when the loop breaks, `none` otherwise. -/
def earlyExit {ι : Type} {nS : ℕ} (iterIdx : ℕ) (st : OptState nS ι) : Option (OptState nS ι) :=
  if 4 < iterIdx ∧ |pyGet 0 st.isLoss (-2) - pyGet 0 st.isLoss (-1)| < 0.0001
      ∧ |pyGet 0 st.isLoss (-3) - pyGet 0 st.isLoss (-2)| < 0.0001 then
    some (if 0.3 < pyGet 0 st.isLoss (-1) then stuckAdjust st else st)
  else none

/-- The `for iter_index in range(...)` loop (lines 288-332) over the listed
    iteration indices.  Returns the final state, the value the Python loop
    variable `iter_index` has after the loop (the index of the last executed
    iteration; the second argument is its would-be value for an empty index
    list, which never occurs), and whether the loop ended through `break`. -/
def runIters {ι : Type} [Fintype ι] {nS : ℕ} (mX : ι → ℝ) (a : ℝ) (sList : Fin nS → ι → ℝ) :
    List ℕ → ℕ → OptState nS ι → OptState nS ι × ℕ × Bool
  | [], lastIdx, st => (st, lastIdx, false)
  | i :: rest, _, st =>
    match earlyExit i (optBody mX a sList i st) with
    | some st2 => (st2, i, true)
    | none => runIters mX a sList rest i (optBody mX a sList i st)

/-- Result committed back to the engine by `optAlpha`:
    `self._alpha`, `self._closs`, `self._amount_iter`, `self._mask`. -/
structure OptResult (nS : ℕ) (ι : Type) where
  alpha : Fin nS → ℝ
  closs : ℝ
  amountIter : ℕ
  mask : ι → ℝ

/-- `optAlpha` (lines 260-352) for a source list with `nS + 1` entries (the
    target at index `0` followed by the residual components).  The loop runs
    over `range(200)` (`self._iterations = 200`, line 25).  After the loop,
    line 337 compares the loop variable with `200`: when equal the arg-min
    entry of the histories is committed, otherwise the current exponent and the
    last recorded loss.  The final mask (lines 348-352) is built from the
    loop-local exponent vector in both cases. -/
def optAlpha {ι : Type} [Fintype ι] {nS : ℕ} (mX : ι → ℝ) (a : ℝ)
    (sList : Fin (nS + 1) → ι → ℝ) : OptResult (nS + 1) ι :=
  ⟨if (runIters mX a sList (List.range 200) 0 (optState0 (nS + 1))).2.1 = 200 then
      pyGet (fun _ => 0)
        (runIters mX a sList (List.range 200) 0 (optState0 (nS + 1))).1.alphaLog
        (argminIdx (runIters mX a sList (List.range 200) 0 (optState0 (nS + 1))).1.isLoss : ℤ)
    else (runIters mX a sList (List.range 200) 0 (optState0 (nS + 1))).1.alpha,
   if (runIters mX a sList (List.range 200) 0 (optState0 (nS + 1))).2.1 = 200 then
      pyGet 0 (runIters mX a sList (List.range 200) 0 (optState0 (nS + 1))).1.isLoss
        (argminIdx (runIters mX a sList (List.range 200) 0 (optState0 (nS + 1))).1.isLoss : ℤ)
    else pyGet 0 (runIters mX a sList (List.range 200) 0 (optState0 (nS + 1))).1.isLoss (-1),
   (runIters mX a sList (List.range 200) 0 (optState0 (nS + 1))).2.1,
   fun i =>
     (sList 0 i ^ (runIters mX a sList (List.range 200) 0 (optState0 (nS + 1))).1.alpha 0 + mEps)
       / (XhatOf sList (runIters mX a sList (List.range 200) 0 (optState0 (nS + 1))).1.alpha i
           + mEps)⟩

/-- `np.eye(M)` (line 377). -/
def npEye (M : ℕ) : Fin M → Fin M → ℝ :=
  fun i j => if i = j then 1 else 0

/-- The `eM == 1` covariance update of `MWF` (lines 387-388):
    `R[:, :, f] = flambda * R[:, :, f] + (1 - flambda) * c` with the scalar
    power value `c` broadcast over every matrix entry. -/
def covStep (M : ℕ) (flambda c : ℝ) (R : Fin M → Fin M → ℝ) : Fin M → Fin M → ℝ :=
  fun i j => flambda * R i j + (1 - flambda) * c

/-- The two per-frequency covariance families `Rxx` and `Rnn` of `MWF`
    (lines 380-381). -/
structure MWFCov (M F : ℕ) where
  Rxx : Fin F → Fin M → Fin M → ℝ
  Rnn : Fin F → Fin M → Fin M → ℝ

/-- The `eM == 1` branch of the inner-loop body at frequency `f` (lines 386-388):
    update `Rxx[:, :, f]` and `Rnn[:, :, f]` in place.  The remainder of the
    loop body (the pseudo-inverse, `Wf` and the output sample, lines 393-400)
    reads the covariances but never writes them, so the covariance evolution is
    exactly this update. -/
def mwfStep (M F : ℕ) (flambda : ℝ) (cx cn : Fin F → ℝ) (st : MWFCov M F) (f : Fin F) :
    MWFCov M F :=
  ⟨Function.update st.Rxx f (covStep M flambda (cx f) (st.Rxx f)),
   Function.update st.Rnn f (covStep M flambda (cn f) (st.Rnn f))⟩

/-- The inner `for f in range(F)` loop of one time frame (lines 385-388),
    processing every frequency bin once. -/
def mwfFrame (M F : ℕ) (flambda : ℝ) (cx cn : Fin F → ℝ) (st : MWFCov M F) : MWFCov M F :=
  (List.finRange F).foldl (mwfStep M F flambda cx cn) st

/-- The outer `for t in range(T)` loop (lines 384-388): `mwfRun ... t` is the
    covariance state after the first `t` time frames, starting from the
    per-frequency identity matrices (lines 380-381). -/
def mwfRun (M F : ℕ) (flambda : ℝ) (cX cN : Fin F → ℕ → ℝ) : ℕ → MWFCov M F
  | 0 => ⟨fun _ => npEye M, fun _ => npEye M⟩
  | t + 1 => mwfFrame M F flambda (fun f => cX f t) (fun f => cN f t) (mwfRun M F flambda cX cN t)

/-- Covariance trajectory of an `MWF` pass with a single estimated channel
    (`eM = 1`): the power-transformed inputs are `cX = sTarget ** alpha` and
    `cN = nResidual ** alpha` (lines 368-369) with the single estimated channel
    dropped from the indexing, and the forgetting factor is `flambda = 0.99`
    (line 366). -/
def mwfCovTrajectory (M F : ℕ) (alpha : ℝ) (sT nR : Fin F → ℕ → ℝ) : ℕ → MWFCov M F :=
  mwfRun M F 0.99 (fun f t => sT f t ^ alpha) (fun f t => nR f t ^ alpha)

/-- Concrete engine used as a witness input: method `Wiener` on a one-element
    index type. -/
def engWiener : Engine (Fin 1) :=
  ⟨fun _ => 2, fun _ => 1, [fun _ => 1], 0, fun _ => 0, 0, fun _ => 0, 1.2, "Wiener"⟩

/-- Concrete engine used as a witness input: method `expMask`. -/
def engExpMask : Engine (Fin 1) :=
  ⟨fun _ => 2, fun _ => 1, [fun _ => 1], 0, fun _ => 0, 0, fun _ => 0, 1.2, "expMask"⟩

/-- Concrete engine used as a witness input: method `Phase`, a non-empty target
    phase array (size 4) and an empty residual phase array (size 0). -/
def engPhase : Engine (Fin 1) :=
  ⟨fun _ => 2, fun _ => 1, [fun _ => 1], 4, fun _ => 1, 0, fun _ => 0, 1.2, "Phase"⟩

/-- Concrete engine used as a witness input: a method selector matching none of
    the nine recognized names. -/
def engUnknown : Engine (Fin 1) :=
  ⟨fun _ => 2, fun _ => 1, [fun _ => 1], 0, fun _ => 0, 0, fun _ => 0, 1.2, "Banana"⟩

end FrequencyMasking

namespace FrequencyMasking

/-- Positivity of the machine-epsilon floor. -/
theorem mEps_pos : 0 < mEps := by
  unfold mEps; positivity

/-- The machine epsilon is below every bound used in the numeric estimates. -/
theorem mEps_lt : mEps < 0.0001 := by
  unfold mEps; norm_num

/-- Mean over a one-element index type is the single entry. -/
theorem npMean_fin_one (f : Fin 1 → ℝ) : npMean f = f 0 := by
  unfold npMean
  rw [Fin.sum_univ_one]
  simp

/-- Claim C8: for non-negative target and residual entries, the IRM mask equals
    `target / (target + residual + eps)` and lies in `[0, 1]`. -/
theorem IRM_formula_and_range {ι : Type} (sT nR : ι → ℝ) (i : ι)
    (h1 : 0 ≤ sT i) (h2 : 0 ≤ nR i) :
    IRM sT nR i = sT i / (sT i + nR i + mEps) ∧
      0 ≤ IRM sT nR i ∧ IRM sT nR i ≤ 1 := by
  have hden : 0 < mEps + sT i + nR i := by
    have := mEps_pos; linarith
  refine ⟨by unfold IRM; ring_nf, ?_, ?_⟩
  · exact div_nonneg h1 hden.le
  · unfold IRM
    rw [div_le_one hden]
    have := mEps_pos; linarith

/-- Witness for claim C8 at the concrete input target `3`, residual `1`. -/
theorem IRM_formula_and_range_witness :
    IRM (fun _ : Fin 1 => (3 : ℝ)) (fun _ => 1) 0 = 3 / (3 + 1 + mEps) ∧
      0 ≤ IRM (fun _ : Fin 1 => (3 : ℝ)) (fun _ => 1) 0 ∧
      IRM (fun _ : Fin 1 => (3 : ℝ)) (fun _ => 1) 0 ≤ 1 :=
  IRM_formula_and_range (fun _ => 3) (fun _ => 1) 0 (by norm_num) (by norm_num)

/-- Claim C6: for every method other than `expMask` (and `MWF`, which never
    reaches the apply step), the reverse application succeeds with the
    complement mask and the two filtered outputs sum exactly to the mixture. -/
theorem apply_plus_reverse_identity {ι : Type} (e : Engine ι) (mask : ι → ℝ)
    (h1 : e.method ≠ "expMask") (h2 : e.method ≠ "MWF") :
    applyReverseMask e mask = Except.ok (fun i => (1 - mask i) * e.mX i) ∧
      ∀ i, applyMask e mask i + (1 - mask i) * e.mX i = e.mX i := by
  constructor
  · unfold applyReverseMask
    rw [if_neg h1]
  · intro i
    unfold applyMask
    rw [if_neg h1]
    ring

/-- Witness for claim C6 on a concrete `Wiener` engine and mask `1/3`. -/
theorem apply_plus_reverse_identity_witness :
    applyReverseMask engWiener (fun _ => 1 / 3) =
        Except.ok (fun i => (1 - (1 : ℝ) / 3) * engWiener.mX i) ∧
      ∀ i, applyMask engWiener (fun _ => 1 / 3) i + (1 - (1 : ℝ) / 3) * engWiener.mX i
          = engWiener.mX i :=
  apply_plus_reverse_identity engWiener (fun _ => 1 / 3) (by decide) (by decide)

/-- Claim C7: invoking an `expMask` engine with the reverse flag raises the
    `UnsupportedOperation` error (the `ValueError` of line 426); the exception
    propagates out of `__call__`, so no filtered output is produced. -/
theorem expMask_reverse_raises {ι : Type} (e : Engine ι) (h : e.method = "expMask") :
    callEngine e true = Except.error reverseErrorMessage := by
  simp [callEngine, applyStep, applyReverseMask, h, Except.map]

/-- Witness for claim C7 on a concrete `expMask` engine. -/
theorem expMask_reverse_raises_witness :
    callEngine engExpMask true = Except.error reverseErrorMessage :=
  expMask_reverse_raises engExpMask (by decide)

/-- Claim C10: a method selector matching none of the nine recognized names
    falls through every dispatch branch; the invocation raises nothing and
    returns the untouched initial (empty) output. -/
theorem unknown_method_returns_initial {ι : Type} (e : Engine ι) (reverse : Bool)
    (h : e.method ∉ (["Phase", "IRM", "IAM", "IBM", "UBBM", "Wiener",
        "alphaWiener", "expMask", "MWF"] : List String)) :
    callEngine e reverse = Except.ok OutVal.initial := by
  simp only [List.mem_cons, List.not_mem_nil, or_false, not_or] at h
  obtain ⟨n1, n2, n3, n4, n5, n6, n7, n8, n9⟩ := h
  simp [callEngine, n1, n2, n3, n4, n5, n6, n7, n8, n9]

/-- Witness for claim C10 on a concrete engine with method name `Banana`. -/
theorem unknown_method_returns_initial_witness :
    callEngine engUnknown false = Except.ok OutVal.initial :=
  unknown_method_returns_initial engUnknown false (by decide)

/-- Claim C2 (divergence): with method `Phase`, a non-empty target phase and an
    empty residual phase the guard of line 34 passes (it tests the target
    phase twice and never the residual phase), so no `InvalidConfiguration`
    error is raised and the phase mask computation and apply step proceed. -/
theorem phase_guard_misses_residual {ι : Type} (e : Engine ι)
    (h1 : e.method = "Phase") (h2 : e.pTargetSize ≠ 0) (h3 : e.pYSize = 0) :
    callEngine e false =
      Except.ok (OutVal.arr (fun i =>
        phaseSensitive e.sTarget e.nResidual.headI e.pTarget e.pY i * e.mX i)) := by
  simp [callEngine, applyStep, applyMask, h1, h2]

/-- Witness for claim C2 on a concrete `Phase` engine with target phase size 4
    and residual phase size 0. -/
theorem phase_guard_misses_residual_witness :
    callEngine engPhase false =
      Except.ok (OutVal.arr (fun i =>
        phaseSensitive engPhase.sTarget engPhase.nResidual.headI engPhase.pTarget
          engPhase.pY i * engPhase.mX i)) :=
  phase_guard_misses_residual engPhase (by decide) (by decide) (by decide)

/-- Counterexample to claim C5 as stated: with target and single residual both
    the constant array `1`, the Wiener mask is `(1 + eps) / (2 + eps)`, which is
    not exactly `0.5`. -/
theorem wiener_equal_inputs_not_half :
    Wiener (fun _ : Fin 1 => (1 : ℝ)) [fun _ => 1] 0 ≠ 1 / 2 := by
  unfold Wiener
  simp only [List.headI, List.tail_cons, List.map_nil, List.sum_nil]
  intro h
  rw [div_eq_div_iff (by have := mEps_pos; nlinarith) (by norm_num)] at h
  have := mEps_pos
  nlinarith

/-- Claim C5 amended: with a single residual equal elementwise to the target,
    every Wiener mask entry equals `(t ^ 2 + eps) / (2 * t ^ 2 + eps)`, which is
    strictly greater than `1/2` and at most `1` (it is `0.5` only up to the
    epsilon floor, not exactly). -/
theorem wiener_equal_inputs_value_and_bounds {ι : Type} (sT : ι → ℝ) (i : ι) :
    Wiener sT [sT] i = (sT i ^ 2 + mEps) / (2 * sT i ^ 2 + mEps) ∧
      1 / 2 < Wiener sT [sT] i ∧ Wiener sT [sT] i ≤ 1 := by
  have hx : (0 : ℝ) ≤ sT i ^ 2 := sq_nonneg _
  have hden : 0 < 2 * sT i ^ 2 + mEps := by have := mEps_pos; nlinarith
  have hval : Wiener sT [sT] i = (sT i ^ 2 + mEps) / (2 * sT i ^ 2 + mEps) := by
    unfold Wiener
    simp only [List.headI, List.tail_cons, List.map_nil, List.sum_nil]
    ring_nf
  refine ⟨hval, ?_, ?_⟩
  · rw [hval, lt_div_iff hden]
    have := mEps_pos
    nlinarith
  · rw [hval, div_le_one hden]
    have := mEps_pos
    nlinarith

/-- Folding the per-frequency update over a duplicate-free list of frequency
    bins updates each listed bin exactly once and leaves the others untouched:
    each update at `f` reads only the slice at `f`, so distinct bins do not
    interact. -/
theorem mwfFold_updates_each_bin_once (M F : ℕ) (flambda : ℝ) (cx cn : Fin F → ℝ) :
    ∀ (l : List (Fin F)), l.Nodup → ∀ (st : MWFCov M F) (f : Fin F),
      ((l.foldl (mwfStep M F flambda cx cn) st).Rxx f
          = if f ∈ l then covStep M flambda (cx f) (st.Rxx f) else st.Rxx f) ∧
      ((l.foldl (mwfStep M F flambda cx cn) st).Rnn f
          = if f ∈ l then covStep M flambda (cn f) (st.Rnn f) else st.Rnn f) := by
  intro l
  induction l with
  | nil =>
    intro _ st f
    simp
  | cons a l ih =>
    intro hnd st f
    have hnd2 := List.nodup_cons.mp hnd
    rw [List.foldl_cons]
    by_cases hfa : f = a
    · subst hfa
      have hni : f ∉ l := hnd2.1
      have hih := ih hnd2.2 (mwfStep M F flambda cx cn st f) f
      rw [hih.1, hih.2, if_neg hni, if_neg hni]
      constructor
      · rw [if_pos (List.mem_cons_self f l)]
        show Function.update st.Rxx f (covStep M flambda (cx f) (st.Rxx f)) f = _
        rw [Function.update_same]
      · rw [if_pos (List.mem_cons_self f l)]
        show Function.update st.Rnn f (covStep M flambda (cn f) (st.Rnn f)) f = _
        rw [Function.update_same]
    · have hih := ih hnd2.2 (mwfStep M F flambda cx cn st a) f
      have hxx : (mwfStep M F flambda cx cn st a).Rxx f = st.Rxx f :=
        Function.update_noteq hfa _ _
      have hnn : (mwfStep M F flambda cx cn st a).Rnn f = st.Rnn f :=
        Function.update_noteq hfa _ _
      rw [hih.1, hih.2, hxx, hnn]
      simp [List.mem_cons, hfa]

/-- One frame of the `MWF` inner loop applies the forgetting-factor update to
    every frequency bin exactly once. -/
theorem mwfFrame_updates (M F : ℕ) (flambda : ℝ) (cx cn : Fin F → ℝ)
    (st : MWFCov M F) (f : Fin F) :
    (mwfFrame M F flambda cx cn st).Rxx f = covStep M flambda (cx f) (st.Rxx f) ∧
      (mwfFrame M F flambda cx cn st).Rnn f = covStep M flambda (cn f) (st.Rnn f) := by
  have h := mwfFold_updates_each_bin_once M F flambda cx cn (List.finRange F)
    (List.nodup_finRange F) st f
  unfold mwfFrame
  rw [h.1, h.2, if_pos (List.mem_finRange f), if_pos (List.mem_finRange f)]
  exact ⟨rfl, rfl⟩

/-- Claim C9: in an `MWF` pass with a single estimated channel, both
    per-frequency covariance families start as the identity matrix for every
    frequency bin, and each processed `(f, t)` pair applies the exponential
    forgetting recurrence `R := 0.99 * R + 0.01 * (power-transformed value)`. -/
theorem MWF_cov_identity_and_forgetting (M F : ℕ) (alpha : ℝ) (sT nR : Fin F → ℕ → ℝ) :
    (∀ f, (mwfCovTrajectory M F alpha sT nR 0).Rxx f = npEye M ∧
        (mwfCovTrajectory M F alpha sT nR 0).Rnn f = npEye M) ∧
      ∀ t f i j,
        ((mwfCovTrajectory M F alpha sT nR (t + 1)).Rxx f i j
            = 0.99 * (mwfCovTrajectory M F alpha sT nR t).Rxx f i j + 0.01 * sT f t ^ alpha) ∧
        ((mwfCovTrajectory M F alpha sT nR (t + 1)).Rnn f i j
            = 0.99 * (mwfCovTrajectory M F alpha sT nR t).Rnn f i j + 0.01 * nR f t ^ alpha) := by
  constructor
  · intro f
    exact ⟨rfl, rfl⟩
  · intro t f i j
    have h := mwfFrame_updates M F 0.99 (fun g => sT g t ^ alpha) (fun g => nR g t ^ alpha)
      (mwfCovTrajectory M F alpha sT nR t) f
    have hx : (mwfCovTrajectory M F alpha sT nR (t + 1)).Rxx f
        = covStep M 0.99 (sT f t ^ alpha) ((mwfCovTrajectory M F alpha sT nR t).Rxx f) := h.1
    have hn : (mwfCovTrajectory M F alpha sT nR (t + 1)).Rnn f
        = covStep M 0.99 (nR f t ^ alpha) ((mwfCovTrajectory M F alpha sT nR t).Rnn f) := h.2
    constructor
    · rw [hx]
      unfold covStep
      norm_num
    · rw [hn]
      unfold covStep
      norm_num

/-- The value the loop variable holds after `runIters` is either the dummy
    value for an empty index list or one of the listed indices. -/
theorem runIters_idx_mem {ι : Type} [Fintype ι] {nS : ℕ} (mX : ι → ℝ) (a : ℝ)
    (sList : Fin nS → ι → ℝ) :
    ∀ (idxs : List ℕ) (lastIdx : ℕ) (st : OptState nS ι),
      (runIters mX a sList idxs lastIdx st).2.1 ∈ lastIdx :: idxs := by
  intro idxs
  induction idxs with
  | nil =>
    intro lastIdx st
    simp [runIters]
  | cons i rest ih =>
    intro lastIdx st
    rw [runIters]
    cases h : earlyExit i (optBody mX a sList i st) with
    | some st2 =>
      simp only [h]
      exact List.mem_cons_of_mem _ (List.mem_cons_self _ _)
    | none =>
      simp only [h]
      exact List.mem_cons_of_mem _ (ih i (optBody mX a sList i st))

/-- Claim C1 (divergence): the loop variable of `for iter_index in range(200)`
    ends at most at `199`, so the `iter_index == self._iterations` comparison of
    line 337 is false for every invocation and the arg-min branch is dead code:
    `optAlpha` always commits the exponent vector of the final executed
    iteration and the last recorded loss, never the arg-min history entry. -/
theorem optAlpha_commits_last_iterate {ι : Type} [Fintype ι] {nS : ℕ} (mX : ι → ℝ) (a : ℝ)
    (sList : Fin (nS + 1) → ι → ℝ) :
    (optAlpha mX a sList).amountIter < 200 ∧
      (optAlpha mX a sList).alpha
          = (runIters mX a sList (List.range 200) 0 (optState0 (nS + 1))).1.alpha ∧
      (optAlpha mX a sList).closs
          = pyGet 0 (runIters mX a sList (List.range 200) 0 (optState0 (nS + 1))).1.isLoss (-1) := by
  have hmem := runIters_idx_mem mX a sList (List.range 200) 0 (optState0 (nS + 1))
  have hlt : (runIters mX a sList (List.range 200) 0 (optState0 (nS + 1))).2.1 < 200 := by
    rcases List.mem_cons.mp hmem with h | h
    · omega
    · exact List.mem_range.mp h
  have hne : ¬((runIters mX a sList (List.range 200) 0 (optState0 (nS + 1))).2.1 = 200) := by
    omega
  refine ⟨hlt, ?_, ?_⟩
  · show (if _ = 200 then _ else _) = _
    rw [if_neg hne]
  · show (if _ = 200 then _ else _) = _
    rw [if_neg hne]

/-- Claim C3 (divergence): the `Stuck...` rollback commits the exponent history
    entry at index `argmin - 1` (the entry recorded one iteration before the
    best one), not the arg-min entry itself; whenever those two history entries
    differ, the committed exponent is not the best-so-far one, while the last
    recorded loss does become the minimal loss. -/
theorem stuck_rollback_off_by_one {ι : Type} {nS : ℕ} (st : OptState nS ι) (k : ℕ)
    (hk : argminIdx st.isLoss = k) (h1 : 1 ≤ k)
    (hne : st.alphaLog.getD (k - 1) (fun _ => 0) ≠ st.alphaLog.getD k (fun _ => 0)) :
    (stuckAdjust st).alpha = st.alphaLog.getD (k - 1) (fun _ => 0) ∧
      (stuckAdjust st).alpha ≠ st.alphaLog.getD k (fun _ => 0) ∧
      (stuckAdjust st).isLoss = replaceLast st.isLoss (pyGet 0 st.isLoss (k : ℤ)) := by
  have halpha : (stuckAdjust st).alpha = st.alphaLog.getD (k - 1) (fun _ => 0) := by
    show pyGet (fun _ => 0) st.alphaLog ((argminIdx st.isLoss : ℤ) - 1) = _
    rw [hk]
    unfold pyGet
    rw [if_neg (by omega : ¬((k : ℤ) - 1 < 0))]
    congr 1
    omega
  refine ⟨halpha, halpha ▸ hne, ?_⟩
  show replaceLast st.isLoss (pyGet 0 st.isLoss (argminIdx st.isLoss : ℤ)) = _
  rw [hk]

/-- Witness for claim C3: a concrete optimizer state whose loss history
    `[5, 3]` attains its minimum at index `1` while the two logged exponent
    vectors differ; the rollback picks the index-`0` entry. -/
theorem stuck_rollback_off_by_one_witness :
    (stuckAdjust (⟨fun _ => 1, fun _ => 1, [fun _ => 1, fun _ => 2], [5, 3]⟩
          : OptState 1 (Fin 1))).alpha
        = [fun _ : Fin 1 => (1 : ℝ), fun _ => 2].getD 0 (fun _ => 0) ∧
      (stuckAdjust (⟨fun _ => 1, fun _ => 1, [fun _ => 1, fun _ => 2], [5, 3]⟩
          : OptState 1 (Fin 1))).alpha
        ≠ [fun _ : Fin 1 => (1 : ℝ), fun _ => 2].getD 1 (fun _ => 0) ∧
      (stuckAdjust (⟨fun _ => 1, fun _ => 1, [fun _ => 1, fun _ => 2], [5, 3]⟩
          : OptState 1 (Fin 1))).isLoss
        = replaceLast [5, 3] (pyGet 0 [5, 3] (1 : ℤ)) := by
  have hmin : argminIdx ([5, 3] : List ℝ) = 1 := by
    unfold argminIdx
    rw [if_neg (by norm_num [listMin])]
    unfold argminIdx
    rw [if_pos (Or.inr rfl)]
  have hne : ([fun _ : Fin 1 => (1 : ℝ), fun _ => 2].getD 0 (fun _ => 0))
      ≠ [fun _ : Fin 1 => (1 : ℝ), fun _ => 2].getD 1 (fun _ => 0) := by
    intro h
    have h0 := congrFun h 0
    simp only [List.getD] at h0
    norm_num at h0
  exact stuck_rollback_off_by_one _ 1 hmin (by norm_num) hne

/-- The loss the code records (`_IS` with the engine attribute exponent) has
    exactly the `mean(r - log r - 1)` shape of the specification once the two
    logarithms are combined; the reference power is the engine exponent. -/
theorem ISdist_eq_claimed {ι : Type} [Fintype ι] (mX : ι → ℝ) (a : ℝ) (Xhat : ι → ℝ) :
    ISdist mX a Xhat = ISclaimed mX a Xhat := by
  unfold ISdist ISclaimed npMean
  congr 1
  apply Finset.sum_congr rfl
  intro i _
  have h1 : (0 : ℝ) < |mX i| ^ a + mEps := by
    have := Real.rpow_nonneg (abs_nonneg (mX i)) a
    have := mEps_pos
    linarith
  have h2 : (0 : ℝ) < |Xhat i| + mEps := by
    have := abs_nonneg (Xhat i)
    have := mEps_pos
    linarith
  dsimp only
  rw [Real.log_div h1.ne' h2.ne']

/-- Claim C4 amended: every iteration of the `optAlpha` loop appends the scalar
    loss `mean(r - log r - 1)` with
    `r = (abs(mixture) ** a + eps) / (abs(Xhat) + eps)`, where `a` is the fixed
    engine attribute exponent passed to `_IS` — not the per-source exponent of
    the current iterate. -/
theorem optBody_appends_engine_alpha_loss {ι : Type} [Fintype ι] {nS : ℕ} (mX : ι → ℝ)
    (a : ℝ) (sList : Fin nS → ι → ℝ) (iterIdx : ℕ) (st : OptState nS ι) :
    (optBody mX a sList iterIdx st).isLoss =
      st.isLoss ++
        [ISclaimed mX a (XhatOf sList (optBody mX a sList iterIdx st).alpha)] := by
  show st.isLoss ++ [ISdist mX a (XhatOf sList (alphaUpdate mX a sList st))]
      = st.isLoss ++ [ISclaimed mX a (XhatOf sList (optBody mX a sList iterIdx st).alpha)]
  rw [ISdist_eq_claimed]
  rfl

/-- The logarithm floor `log(1 + eps)` is strictly positive. -/
theorem log_one_add_mEps_pos : 0 < Real.log (1 + mEps) :=
  Real.log_pos (by have := mEps_pos; linarith)

/-- The logarithm floor `log(1 + eps)` is below `eps`. -/
theorem log_one_add_mEps_lt : Real.log (1 + mEps) < mEps := by
  have h := Real.log_lt_sub_one_of_pos
    (by have := mEps_pos; linarith : (0 : ℝ) < 1 + mEps)
    (by have := mEps_pos; intro h; nlinarith [congrArg (fun z => z - 1) h])
  linarith

/-- Monotone lower bound for the power of four appearing in the loss. -/
theorem four_rpow_ge_four (y : ℝ) (hy : 1 ≤ y) : (4 : ℝ) ≤ 4 ^ y := by
  have h := Real.rpow_le_rpow_of_exponent_le (by norm_num : (1 : ℝ) ≤ 4) hy
  rwa [Real.rpow_one] at h

/-- Exact value of `4 ^ (3/2)`. -/
theorem four_rpow_three_halves : (4 : ℝ) ^ ((3 : ℝ) / 2) = 8 := by
  have h2 : (4 : ℝ) = (2 : ℝ) ^ ((2 : ℕ) : ℝ) := by
    rw [Real.rpow_natCast]
    norm_num
  rw [h2, ← Real.rpow_mul (by norm_num : (0 : ℝ) ≤ 2)]
  rw [show ((2 : ℕ) : ℝ) * ((3 : ℝ) / 2) = ((3 : ℕ) : ℝ) by push_cast; ring]
  rw [Real.rpow_natCast]
  norm_num

/-- Upper bound for the power of four appearing in the loss derivative. -/
theorem four_rpow_lt_eight : (4 : ℝ) ^ (1.2 : ℝ) < 8 := by
  have h := Real.rpow_lt_rpow_of_exponent_lt (by norm_num : (1 : ℝ) < 4)
    (by norm_num : (1.2 : ℝ) < (3 : ℝ) / 2)
  rwa [four_rpow_three_halves] at h

/-- Strict monotonicity of the power of four in the exponent. -/
theorem four_rpow_strict : (4 : ℝ) ^ (1.15 : ℝ) < (4 : ℝ) ^ (1.2 : ℝ) :=
  Real.rpow_lt_rpow_of_exponent_lt (by norm_num) (by norm_num)

/-- The additive power spectrogram of a constant-one source list is the
    constant-one array, whatever the exponents. -/
theorem XhatOf_one (g : Fin 1 → ℝ) :
    XhatOf (fun _ _ => (1 : ℝ) : Fin 1 → Fin 1 → ℝ) g = fun _ => 1 := by
  funext i
  unfold XhatOf
  rw [Fin.sum_univ_one, Real.one_rpow]

/-- Concrete value of the loss derivative `_dIS` at mixture `4`, estimate `1`. -/
theorem dIS_cex :
    dISdist (fun _ : Fin 1 => (4 : ℝ)) 1.2 (fun _ => 1)
      = (1 + mEps) ^ (-2 : ℝ) * (1 - (4 : ℝ) ^ (1.2 : ℝ)) := by
  unfold dISdist
  rw [npMean_fin_one]
  show |(1 : ℝ) + mEps| ^ (-2 : ℝ) * (|(1 : ℝ)| - |(4 : ℝ)| ^ (1.2 : ℝ)) = _
  rw [abs_of_pos (by have := mEps_pos; linarith : (0 : ℝ) < 1 + mEps), abs_one,
    abs_of_pos (by norm_num : (0 : ℝ) < 4)]

/-- On the concrete input (mixture `4`, single source constant `1`, engine
    exponent `1.2`) the first optimizer iteration leaves the exponent at
    `1.15`: the gradient step moves it by less than `2 ^ (-40)` and the
    `round(alpha * 100) / 100` stabilization rounds it back. -/
theorem optBody_cex_alpha :
    (optBody (fun _ : Fin 1 => (4 : ℝ)) 1.2 (fun _ _ => (1 : ℝ)) 0
        (optState0 1)).alpha = fun _ => 1.15 := by
  funext s
  have hD : dLossOf (fun _ : Fin 1 => (4 : ℝ)) 1.2 (fun _ _ => (1 : ℝ))
      (fun _ => (1.15 : ℝ)) s
      = (1 + mEps) ^ (-2 : ℝ) * (1 - (4 : ℝ) ^ (1.2 : ℝ)) * Real.log (1 + mEps) := by
    unfold dLossOf
    rw [XhatOf_one, dIS_cex]
    congr 1
    rw [npMean_fin_one]
    show (1 : ℝ) ^ (1.15 : ℝ) * Real.log ((1 : ℝ) + mEps) = Real.log (1 + mEps)
    rw [Real.one_rpow, one_mul]
  have hLpos : 0 < Real.log (1 + mEps) := log_one_add_mEps_pos
  have hLlt : Real.log (1 + mEps) < mEps := log_one_add_mEps_lt
  have hBpos : (0 : ℝ) < (1 + mEps) ^ (-2 : ℝ) :=
    Real.rpow_pos_of_pos (by have := mEps_pos; linarith) _
  have hBle : (1 + mEps) ^ (-2 : ℝ) ≤ 1 :=
    Real.rpow_le_one_of_one_le_of_nonpos (by have := mEps_pos; linarith) (by norm_num)
  have hP4 : (4 : ℝ) ≤ (4 : ℝ) ^ (1.2 : ℝ) := four_rpow_ge_four 1.2 (by norm_num)
  have hP8 : (4 : ℝ) ^ (1.2 : ℝ) < 8 := four_rpow_lt_eight
  have hEps := mEps_pos
  have hEpsLt := mEps_lt
  have hDneg : (1 + mEps) ^ (-2 : ℝ) * (1 - (4 : ℝ) ^ (1.2 : ℝ)) * Real.log (1 + mEps) < 0 := by
    apply mul_neg_of_neg_of_pos _ hLpos
    apply mul_neg_of_pos_of_neg hBpos
    linarith
  have hDgt : -(7 * mEps)
      < (1 + mEps) ^ (-2 : ℝ) * (1 - (4 : ℝ) ^ (1.2 : ℝ)) * Real.log (1 + mEps) := by
    nlinarith [mul_pos hBpos hLpos, mul_le_of_le_one_left hLpos.le hBle]
  show ((round (max 0.5 (min 2 ((1.15 : ℝ) - 0.0015 *
      dLossOf (fun _ : Fin 1 => (4 : ℝ)) 1.2 (fun _ _ => (1 : ℝ)) (fun _ => (1.15 : ℝ)) s))
      * 100) : ℤ) : ℝ) / 100 = 1.15
  rw [hD]
  set D := (1 + mEps) ^ (-2 : ℝ) * (1 - (4 : ℝ) ^ (1.2 : ℝ)) * Real.log (1 + mEps) with hDdef
  have hx1 : (1.15 : ℝ) < 1.15 - 0.0015 * D := by nlinarith
  have hx2 : (1.15 : ℝ) - 0.0015 * D < 1.151 := by nlinarith
  rw [min_eq_right (by linarith : (1.15 : ℝ) - 0.0015 * D ≤ 2)]
  rw [max_eq_right (by linarith : (0.5 : ℝ) ≤ 1.15 - 0.0015 * D)]
  have hround : round (((1.15 : ℝ) - 0.0015 * D) * 100) = (115 : ℤ) := by
    rw [round_eq]
    apply Int.floor_eq_iff.mpr
    constructor
    · push_cast
      nlinarith
    · push_cast
      nlinarith
  rw [hround]
  norm_num

/-- On the concrete input of `optBody_cex_alpha`, the loss appended by the
    first iteration is the `_IS` value at the constant-one estimate. -/
theorem optBody_cex_loss :
    (optBody (fun _ : Fin 1 => (4 : ℝ)) 1.2 (fun _ _ => (1 : ℝ)) 0 (optState0 1)).isLoss
      = [ISdist (fun _ : Fin 1 => (4 : ℝ)) 1.2 (fun _ => 1)] := by
  show [] ++ [ISdist (fun _ : Fin 1 => (4 : ℝ)) 1.2
      (XhatOf (fun _ _ => (1 : ℝ))
        (alphaUpdate (fun _ : Fin 1 => (4 : ℝ)) 1.2 (fun _ _ => (1 : ℝ)) (optState0 1)))] = _
  rw [XhatOf_one]
  rfl

/-- Strict monotonicity of `r - log r - 1` on `[1, oo)`. -/
theorem IS_integrand_strictMono {x y : ℝ} (hx : 1 ≤ x) (hxy : x < y) :
    x - Real.log x - 1 < y - Real.log y - 1 := by
  have hx0 : (0 : ℝ) < x := lt_of_lt_of_le one_pos hx
  have hy0 : (0 : ℝ) < y := lt_trans hx0 hxy
  have h1 : Real.log y - Real.log x = Real.log (y / x) :=
    (Real.log_div hy0.ne' hx0.ne').symm
  have hq1 : y / x ≠ 1 := by
    intro h
    rw [div_eq_one_iff_eq hx0.ne'] at h
    linarith
  have h2 : Real.log (y / x) < y / x - 1 :=
    Real.log_lt_sub_one_of_pos (div_pos hy0 hx0) hq1
  have h3 : y / x - 1 ≤ y - x := by
    have hyx : y / x - 1 = (y - x) / x := by field_simp
    rw [hyx]
    exact div_le_self (by linarith) hx
  linarith

/-- Counterexample to claim C4 as stated: on the concrete input (mixture `4`,
    single constant-one source, engine exponent `1.2`), the loss appended by
    the first `optAlpha` iteration differs from `mean(r - log r - 1)` with
    `r` built from the iterate target exponent (`1.15` after the iteration):
    the code builds `r` from the engine attribute exponent `1.2` instead. -/
theorem optAlpha_loss_not_target_exponent_cex :
    pyGet 0 (optBody (fun _ : Fin 1 => (4 : ℝ)) 1.2 (fun _ _ => (1 : ℝ)) 0
        (optState0 1)).isLoss (-1)
      ≠ ISclaimed (fun _ : Fin 1 => (4 : ℝ))
          ((optBody (fun _ : Fin 1 => (4 : ℝ)) 1.2 (fun _ _ => (1 : ℝ)) 0
              (optState0 1)).alpha 0)
          (XhatOf (fun _ _ => (1 : ℝ))
            (optBody (fun _ : Fin 1 => (4 : ℝ)) 1.2 (fun _ _ => (1 : ℝ)) 0
              (optState0 1)).alpha) := by
  rw [optBody_cex_loss, optBody_cex_alpha, XhatOf_one]
  have hpy : pyGet 0 [ISdist (fun _ : Fin 1 => (4 : ℝ)) 1.2 (fun _ => 1)] (-1)
      = ISdist (fun _ : Fin 1 => (4 : ℝ)) 1.2 (fun _ => 1) := by
    unfold pyGet
    norm_num
  rw [hpy, ISdist_eq_claimed]
  have hval : ∀ y : ℝ, ISclaimed (fun _ : Fin 1 => (4 : ℝ)) y (fun _ => 1)
      = ((4 : ℝ) ^ y + mEps) / (1 + mEps)
          - Real.log (((4 : ℝ) ^ y + mEps) / (1 + mEps)) - 1 := by
    intro y
    unfold ISclaimed
    rw [npMean_fin_one]
    show (|(4 : ℝ)| ^ y + mEps) / (|(1 : ℝ)| + mEps)
        - Real.log ((|(4 : ℝ)| ^ y + mEps) / (|(1 : ℝ)| + mEps)) - 1 = _
    rw [abs_of_pos (by norm_num : (0 : ℝ) < 4), abs_one]
  show ISclaimed (fun _ : Fin 1 => (4 : ℝ)) 1.2 (fun _ => 1)
      ≠ ISclaimed (fun _ : Fin 1 => (4 : ℝ)) 1.15 (fun _ => 1)
  rw [hval, hval]
  have hden : (0 : ℝ) < 1 + mEps := by have := mEps_pos; linarith
  have h4 : (4 : ℝ) ≤ (4 : ℝ) ^ (1.15 : ℝ) := four_rpow_ge_four 1.15 (by norm_num)
  have hr1 : (1 : ℝ) ≤ ((4 : ℝ) ^ (1.15 : ℝ) + mEps) / (1 + mEps) := by
    rw [le_div_iff hden]
    nlinarith
  have hrlt : ((4 : ℝ) ^ (1.15 : ℝ) + mEps) / (1 + mEps)
      < ((4 : ℝ) ^ (1.2 : ℝ) + mEps) / (1 + mEps) :=
    (div_lt_div_right hden).mpr (by linarith [four_rpow_strict])
  exact ne_of_gt (IS_integrand_strictMono hr1 hrlt)

end FrequencyMasking

end
